import Mathlib

/-!
# SithCodec — verification of the natural-language specification

Shallow embedding of the SithCodec sources (`src/codec.cpp`, the `codec.h`
declarations shipped with `main.cpp`, and the older 2020 implementation in
`SithCodec/SithCodec.h`) together with proofs settling the frozen claims.

Modelling conventions:
* bytes are `Nat`s, files are lists of bytes;
* the filesystem is a flat association list from path strings to byte lists,
  plus a log of the directories the code asked `create_directories` to create;
* a C++ `std::istream` is modelled by `IStream` (data, get position, `failbit`,
  `eofbit`) with the C++11 semantics of `read`/`seekg`/`tellg`:
  `seekg` clears only `eofbit` and is a no-op while `failbit` is set, a short
  `read` stores the extracted characters and raises `eofbit` and `failbit`,
  and `istreambuf_iterator` copying ignores the state flags entirely and
  drains the underlying buffer from its current position;
* the stack buffer `char header[Header::maxSize]` in `formatOf` is
  uninitialised, so its residual contents are passed in as a `junk` parameter;
* `getTempPath` returns a fresh path, so the temp path is a parameter that
  theorems may assume absent from the filesystem;
* `std::filesystem::remove` can fail; a `removeOk : Bool` parameter tells
  whether the one removal performed by `encode`/`decode` succeeds.
-/

namespace SithCodec

/-! ## List helper lemmas -/

theorem take_len_append (l₁ l₂ : List α) : (l₁ ++ l₂).take l₁.length = l₁ := by
  induction l₁ with
  | nil => rfl
  | cons a l ih => simp [ih]

theorem drop_len_append (l₁ l₂ : List α) : (l₁ ++ l₂).drop l₁.length = l₂ := by
  induction l₁ with
  | nil => rfl
  | cons a l ih => simp [ih]

theorem takeWhile_append_all (p : α → Bool) (l₁ l₂ : List α)
    (h : ∀ a ∈ l₁, p a = true) :
    (l₁ ++ l₂).takeWhile p = l₁ ++ l₂.takeWhile p := by
  induction l₁ with
  | nil => rfl
  | cons a l ih =>
    have ha : p a = true := h a (by simp)
    simp only [List.cons_append, List.takeWhile_cons, ha, if_true]
    rw [ih (fun b hb => h b (by simp [hb]))]

theorem dropWhile_append_all (p : α → Bool) (l₁ l₂ : List α)
    (h : ∀ a ∈ l₁, p a = true) :
    (l₁ ++ l₂).dropWhile p = l₂.dropWhile p := by
  induction l₁ with
  | nil => rfl
  | cons a l ih =>
    have ha : p a = true := h a (by simp)
    simp only [List.cons_append, List.dropWhile_cons, ha, if_true]
    exact ih (fun b hb => h b (by simp [hb]))

theorem takeWhile_cons_stop (p : α → Bool) (a : α) (l : List α)
    (h : p a = false) : (a :: l).takeWhile p = [] := by
  simp [List.takeWhile_cons, h]

theorem dropWhile_cons_stop (p : α → Bool) (a : α) (l : List α)
    (h : p a = false) : (a :: l).dropWhile p = a :: l := by
  simp [List.dropWhile_cons, h]

theorem mem_of_takeWhile {p : α → Bool} {l : List α} {a : α}
    (h : a ∈ l.takeWhile p) : p a = true := by
  induction l with
  | nil => simp [List.takeWhile] at h
  | cons b l ih =>
    rw [List.takeWhile_cons] at h
    by_cases hb : p b = true
    · rw [if_pos hb] at h
      rcases List.mem_cons.1 h with h1 | h2
      · exact h1 ▸ hb
      · exact ih h2
    · rw [if_neg hb] at h
      exact absurd h (List.not_mem_nil a)

theorem dropWhile_head_false {p : α → Bool} {l : List α} {a : α} {r : List α}
    (h : l.dropWhile p = a :: r) : p a = false := by
  induction l with
  | nil => simp [List.dropWhile] at h
  | cons b l ih =>
    rw [List.dropWhile_cons] at h
    by_cases hb : p b = true
    · rw [if_pos hb] at h
      exact ih h
    · rw [if_neg hb] at h
      cases h
      exact Bool.not_eq_true _ ▸ (by simpa using hb)

/-! ## Data model

`AudioFormat` is the enum from `codec.h`; the header byte table lives in
`FileHeaders.h`, which is not part of `src/`. -/

/-- `enum class AudioFormat { None, SFX, VO }` from `codec.h`. -/
inductive AudioFormat where
  | None
  | SFX
  | VO
deriving DecidableEq, Repr

/-- Modelled from the spec: `FileHeaders.h` (the namespace `Header` holding
`sfx`, `sfxSize`, `vo`, `voSize`, `maxSize`) is absent from `src/`.  The spec
fixes only the shape of that table: each non-`None` format has a fixed,
non-empty signature byte sequence (§4.1), the two signatures are distinct and
are not prefixes of one another (§3, §4.2 "disjoint prefixes"), and
`maxSize` is the larger of the two signature lengths (§3).  We therefore keep
the byte values abstract as a structure and state the shape as `WellFormed`. -/
structure Header where
  sfx : List Nat
  vo : List Nat
deriving DecidableEq, Repr

/-- `Header::maxSize`: the larger of the signature lengths (spec §3). -/
def Header.maxSize (H : Header) : Nat := max H.sfx.length H.vo.length

/-- The spec's constraints on the signature table: non-empty signatures that
are disjoint as prefixes (spec §3, §4.1, §4.2). -/
def Header.WellFormed (H : Header) : Prop :=
  H.sfx ≠ [] ∧ H.vo ≠ [] ∧ ¬ H.sfx <+: H.vo ∧ ¬ H.vo <+: H.sfx

instance (H : Header) : Decidable H.WellFormed := by
  unfold Header.WellFormed
  infer_instance

/-- The hypothetical signature table of spec §8 ("signature
`SFX = [0x52,0x49,0x46,0x46]` (4 bytes), `VO = [0xFF,0xFB]` (2 bytes)"),
used to instantiate abstract theorems on concrete inputs. -/
def testHeader : Header :=
  { sfx := [0x52, 0x49, 0x46, 0x46], vo := [0xFF, 0xFB] }

/-- `getHeader` from `main.cpp` (2022 `codec.h`): returns the signature bytes
for `SFX`/`VO` and a null pointer (modelled as `none`) for `None`. -/
def getHeader (H : Header) : AudioFormat → Option (List Nat)
  | .SFX => some H.sfx
  | .VO => some H.vo
  | .None => none

/-- `sizeOfHeader` from `main.cpp` (2022 `codec.h`): the signature length for
`SFX`/`VO`; the `default` branch returns `Header::maxSize`. -/
def sizeOfHeader (H : Header) : AudioFormat → Nat
  | .SFX => H.sfx.length
  | .VO => H.vo.length
  | .None => H.maxSize

/-- The signature bytes of a non-`None` format (`[]` for `None`); convenience
for stating what `encode` stages. -/
def sigOf (H : Header) : AudioFormat → List Nat
  | .SFX => H.sfx
  | .VO => H.vo
  | .None => []

/-- `getEncodeExtension` from `main.cpp`: always `".wav"`. -/
def getEncodeExtension (_ : AudioFormat) : String := ".wav"

/-- `getDecodeExtension` from `main.cpp`:
`format == AudioFormat::VO ? mp3 : wav`. -/
def getDecodeExtension (f : AudioFormat) : String :=
  if f = .VO then ".mp3" else ".wav"

/-! ## Path model

Just enough of `std::filesystem::path` for the operations the codec uses:
`replace_extension`, `extension`, `parent_path`. A path is a `String`;
the filename is the maximal suffix without `'/'`. -/

/-- Split a path's characters into (directory part including the trailing
slash, filename). -/
def splitSlash (p : List Char) : List Char × List Char :=
  ((p.reverse.dropWhile (fun c => c != '/')).reverse,
   (p.reverse.takeWhile (fun c => c != '/')).reverse)

/-- Split a filename into (stem, extension) following the
`std::filesystem::path` rules: the extension starts at the last dot, except
that `"."`, `".."` and a filename whose only dot is its first character have
no extension. -/
def extSplit (f : List Char) : List Char × List Char :=
  if f = ['.'] ∨ f = ['.', '.'] then (f, [])
  else
    let t := f.reverse.takeWhile (fun c => c != '.')
    if t.length = f.length then (f, [])
    else if f.length = t.length + 1 then (f, [])
    else (f.take (f.length - t.length - 1), f.drop (f.length - t.length - 1))

/-- `path::extension()` on the string form of a path. -/
def extensionOf (p : String) : String :=
  ⟨(extSplit (splitSlash p.data).2).2⟩

/-- The stem of a path's filename. -/
def stemOf (p : String) : String :=
  ⟨(extSplit (splitSlash p.data).2).1⟩

/-- `path::replace_extension(e)`: drop the filename's extension and append
`e` (a dot is inserted first when `e` is non-empty and does not start with
one). -/
def replaceExtension (p e : String) : String :=
  let d := (splitSlash p.data).1
  let s := (extSplit (splitSlash p.data).2).1
  let e' := match e.data with
    | [] => []
    | c :: r => if c = '.' then c :: r else '.' :: c :: r
  ⟨d ++ s ++ e'⟩

/-- `path::parent_path()` on the string form: the directory part without its
trailing slash (kept when the parent is the root `"/"`). -/
def parentOf (p : String) : String :=
  let d := (splitSlash p.data).1
  if d = ['/'] then "/" else ⟨d.dropLast⟩

theorem splitSlash_append_eq (p : List Char) :
    (splitSlash p).1 ++ (splitSlash p).2 = p := by
  unfold splitSlash
  rw [← List.reverse_append, List.takeWhile_append_dropWhile, List.reverse_reverse]

theorem splitSlash_no_slash (p : List Char) :
    ∀ c ∈ (splitSlash p).2, (c != '/') = true := by
  intro c hc
  unfold splitSlash at hc
  rw [List.mem_reverse] at hc
  exact mem_of_takeWhile (p := fun c => c != '/') hc

theorem splitSlash_dir_form (p : List Char) :
    (splitSlash p).1 = [] ∨ ∃ d₀, (splitSlash p).1 = d₀ ++ ['/'] := by
  unfold splitSlash
  cases hd : p.reverse.dropWhile (fun c => c != '/') with
  | nil => left; simp
  | cons a r =>
    right
    have ha : (a != '/') = false := dropWhile_head_false (p := fun c => c != '/') hd
    have ha' : a = '/' := by
      simpa using ha
    refine ⟨r.reverse, ?_⟩
    simp [hd, ha']

theorem splitSlash_of_append (d x : List Char)
    (hx : ∀ c ∈ x, (c != '/') = true)
    (hd : d = [] ∨ ∃ d₀, d = d₀ ++ ['/']) :
    splitSlash (d ++ x) = (d, x) := by
  unfold splitSlash
  rw [List.reverse_append]
  have hxr : ∀ c ∈ x.reverse, (fun c => c != '/') c = true := by
    intro c hc
    exact hx c (List.mem_reverse.1 hc)
  rw [takeWhile_append_all _ _ _ hxr, dropWhile_append_all _ _ _ hxr]
  rcases hd with h | ⟨d₀, h⟩
  · subst h; simp
  · subst h
    rw [List.reverse_append]
    have : (('/' : Char) != '/') = false := by decide
    simp only [List.reverse_cons, List.reverse_nil, List.nil_append,
      List.singleton_append, List.takeWhile_cons, this, if_false,
      List.dropWhile_cons, Bool.false_eq_true]
    simp

/-! ## Stream model

`IStream` models a `std::istream` opened over a byte file: contents, get
position, and the two state flags the codec's control flow depends on. -/

/-- A C++ input stream over an in-memory byte file. -/
structure IStream where
  data : List Nat
  pos : Nat
  fail : Bool
  eof : Bool
deriving DecidableEq, Repr

/-- A freshly opened (good) stream positioned at the start. -/
def freshStream (data : List Nat) : IStream :=
  { data := data, pos := 0, fail := false, eof := false }

/-- `tellg()`: the current position, or `-1` when `failbit` is set. -/
def tellg (s : IStream) : Int :=
  if s.fail then -1 else (s.pos : Int)

/-- `seekg(off)` (absolute, `ios::beg`): clears `eofbit`, then does nothing
while `failbit` is set; a negative offset fails the stream. -/
def seekgBeg (s : IStream) (off : Int) : IStream :=
  let s₁ := { s with eof := false }
  if s₁.fail then s₁
  else if off < 0 then { s₁ with fail := true }
  else { s₁ with pos := off.toNat }

/-- `read(buf, n)`: an unformatted input function.  If the stream is not
good the sentry fails and `failbit` is set without extracting; otherwise it
extracts up to `n` bytes, and a short extraction stores what was read and
raises `eofbit` and `failbit`. -/
def readN (s : IStream) (n : Nat) : List Nat × IStream :=
  if s.fail || s.eof then ([], { s with fail := true })
  else
    let chunk := (s.data.drop s.pos).take n
    if chunk.length = n then (chunk, { s with pos := s.pos + n })
    else (chunk, { s with pos := s.data.length, fail := true, eof := true })

/-- `copy(istreambuf_iterator(input), {}, ostreambuf_iterator(output))`:
`istreambuf_iterator` reads from the underlying buffer and ignores the
stream's state flags, so it drains whatever follows the current position. -/
def copyAllBytes (s : IStream) : List Nat :=
  s.data.drop s.pos

/-- The signature comparison at the end of `formatOf` (codec.cpp:256-261):
`equal` over the first `sfxSize`/`voSize` bytes of the read buffer, SFX
checked first, sizes guarded against being zero. -/
def matchFormat (H : Header) (buffer : List Nat) : AudioFormat :=
  if H.sfx.length ≠ 0 ∧ buffer.take H.sfx.length = H.sfx then .SFX
  else if H.vo.length ≠ 0 ∧ buffer.take H.vo.length = H.vo then .VO
  else .None

/-- `formatOf` (codec.cpp:248-262): remember `tellg`, seek to the beginning,
`read` `Header::maxSize` bytes into an uninitialised stack buffer (`junk`
models its residual contents), seek back to the remembered position, and
compare signatures.  Returns the detected format and the stream as the
function leaves it. -/
def formatOf (H : Header) (s : IStream) (junk : List Nat) :
    AudioFormat × IStream :=
  let pos := tellg s
  let s₁ := seekgBeg s 0
  let r := readN s₁ H.maxSize
  let buffer := r.1 ++ junk.drop r.1.length
  let s₃ := seekgBeg r.2 pos
  (matchFormat H buffer, s₃)

/-- `skipHeader` (codec.cpp:237-246): seek past the detected format's header;
the `switch` has no `None` case, so nothing happens for `None`. -/
def skipHeader (H : Header) (s : IStream) (f : AudioFormat) : IStream :=
  match f with
  | .SFX => seekgBeg s (H.sfx.length : Int)
  | .VO => seekgBeg s (H.vo.length : Int)
  | .None => s

/-- The byte-level behaviour of `decode` (codec.cpp:130-147) on an input file
with contents `data`: detect the format, skip its header, and drain the rest
of the stream into the temporary file.  Returns the detected format and the
bytes staged in the temporary file. -/
def decodeTransform (H : Header) (data junk : List Nat) :
    AudioFormat × List Nat :=
  let r := formatOf H (freshStream data) junk
  let s₂ := skipHeader H r.2 r.1
  (r.1, copyAllBytes s₂)

/-! ## Filesystem model and error messages -/

/-- Error kinds thrown by the codec (spec §7), with the offending path. -/
inductive Err where
  | openError (path : String)
  | writeError (path : String)
  | deleteError (path : String)
deriving DecidableEq, Repr

/-- `openErrorMsg` (codec.cpp:308-310). -/
def openErrorMsg (path : String) : String :=
  "Failed to open \"" ++ path ++ "\"."

/-- `writeErrorMsg` (codec.cpp:316-318). -/
def writeErrorMsg (path : String) : String :=
  "Failed to write \"" ++ path ++ "\"."

/-- `deleteErrorMsg` (codec.cpp:320-322). -/
def deleteErrorMsg (path : String) : String :=
  "Failed to delete \"" ++ path ++ "\"."

/-- `ex.what()` for the runtime errors the codec throws. -/
def errMsg : Err → String
  | .openError p => openErrorMsg p
  | .writeError p => writeErrorMsg p
  | .deleteError p => deleteErrorMsg p

/-- Association-list lookup over path/bytes pairs. -/
def lookupF : List (String × List Nat) → String → Option (List Nat)
  | [], _ => none
  | (k, v) :: rest, q => if q = k then some v else lookupF rest q

/-- Remove every entry with the given path. -/
def eraseF : List (String × List Nat) → String → List (String × List Nat)
  | [], _ => []
  | (k, v) :: rest, q => if q = k then eraseF rest q else (k, v) :: eraseF rest q

/-- The filesystem: a flat map from paths to file contents, plus the log of
directories the code asked `create_directories` to create. -/
structure FS where
  files : List (String × List Nat)
  dirsCreated : List String
deriving DecidableEq, Repr

def fsLookup (fs : FS) (k : String) : Option (List Nat) :=
  lookupF fs.files k

def fsExists (fs : FS) (k : String) : Bool :=
  (fsLookup fs k).isSome

/-- Create or overwrite a file. -/
def fsInsert (fs : FS) (k : String) (v : List Nat) : FS :=
  { fs with files := (k, v) :: eraseF fs.files k }

/-- `std::filesystem::remove` on a file. -/
def fsErase (fs : FS) (k : String) : FS :=
  { fs with files := eraseF fs.files k }

/-- `std::filesystem::create_directories`, recorded as an event. -/
def fsCreateDirs (fs : FS) (d : String) : FS :=
  { fs with dirsCreated := d :: fs.dirsCreated }

/-- `std::filesystem::rename(a, b)`: moves the file at `a` to `b`,
overwriting any existing file at `b`. -/
def fsRename (fs : FS) (a b : String) : FS :=
  match fsLookup fs a with
  | none => fs
  | some v => fsInsert (fsErase fs a) b v

theorem lookupF_eraseF_ne (l : List (String × List Nat)) (q q' : String)
    (h : q' ≠ q) : lookupF (eraseF l q) q' = lookupF l q' := by
  induction l with
  | nil => rfl
  | cons kv rest ih =>
    obtain ⟨k, v⟩ := kv
    by_cases hk : q = k
    · subst hk
      simp [eraseF, lookupF, ih, h]
    · simp only [eraseF, if_neg hk, lookupF]
      by_cases hk' : q' = k
      · simp [hk']
      · simp [hk', ih]

theorem fsLookup_fsInsert_self (fs : FS) (k : String) (v : List Nat) :
    fsLookup (fsInsert fs k v) k = some v := by
  simp [fsLookup, fsInsert, lookupF]

theorem fsLookup_fsInsert_ne (fs : FS) (k k' : String) (v : List Nat)
    (h : k' ≠ k) : fsLookup (fsInsert fs k v) k' = fsLookup fs k' := by
  simp only [fsLookup, fsInsert, lookupF, if_neg h]
  exact lookupF_eraseF_ne _ _ _ h

/-! ## The 2022 codec (`codec.cpp`) -/

/-- `output.write(header, headerSize)` in `encode` (codec.cpp:84): writing
`n > 0` bytes from a null pointer is undefined behaviour, modelled as
`none`. -/
def writeHeaderBytes : Option (List Nat) → Nat → Option (List Nat)
  | _, 0 => some []
  | none, _ + 1 => none
  | some b, n + 1 => if n + 1 ≤ b.length then some (b.take (n + 1)) else none

/-- The common tail of `encode`/`decode` (codec.cpp:89-101 and 149-161):
if the output path exists, remove it (throwing `DeleteError` when removal
fails); otherwise create the missing parent directories when the parent is
non-empty; finally rename the temporary file onto the output path with its
extension replaced by `ext`. -/
def finalize (fs : FS) (tempPath outputPath ext : String) (removeOk : Bool) :
    Except Err FS :=
  if fsExists fs outputPath then
    if removeOk then
      .ok (fsRename (fsErase fs outputPath) tempPath
            (replaceExtension outputPath ext))
    else .error (.deleteError outputPath)
  else
    let fs₁ := if parentOf outputPath = "" then fs
               else fsCreateDirs fs (parentOf outputPath)
    .ok (fsRename fs₁ tempPath (replaceExtension outputPath ext))

/-- `encode` (codec.cpp:69-102): open the input (throw `OpenError` if
unreadable), open a fresh temporary file, write `sizeOfHeader format` bytes
from `getHeader format` followed by the whole input, then finalize with the
encode extension.  The outer `Option` is `none` when the header write is the
undefined null-pointer write that `format == None` produces. -/
def encode (H : Header) (fs : FS) (inputPath : String) (format : AudioFormat)
    (outputPath tempPath : String) (removeOk : Bool) :
    Option (Except Err FS) :=
  match fsLookup fs inputPath with
  | none => some (.error (.openError inputPath))
  | some data =>
    match writeHeaderBytes (getHeader H format) (sizeOfHeader H format) with
    | none => none
    | some hdr =>
      let fs₁ := fsInsert fs tempPath (hdr ++ data)
      some (finalize fs₁ tempPath outputPath (getEncodeExtension format)
              removeOk)

/-- `decode` (codec.cpp:130-162): open the input (throw `OpenError` if
unreadable), open a fresh temporary file, run `formatOf`, `skipHeader` and
the buffer copy on the input stream (see `decodeTransform`), then finalize
with the decode extension of the detected format.  There is no early return
for `AudioFormat::None`. -/
def decode (H : Header) (fs : FS) (inputPath outputPath tempPath : String)
    (junk : List Nat) (removeOk : Bool) : Except Err FS :=
  match fsLookup fs inputPath with
  | none => .error (.openError inputPath)
  | some data =>
    let r := decodeTransform H data junk
    let fs₁ := fsInsert fs tempPath r.2
    finalize fs₁ tempPath outputPath (getDecodeExtension r.1) removeOk

/-- Look a path up in a successful `encode` result. -/
def resultLookup (r : Option (Except Err FS)) (k : String) :
    Option (Option (List Nat)) :=
  match r with
  | some (.ok fs) => some (fsLookup fs k)
  | _ => none

/-- Look a path up in a successful `decode` result. -/
def exceptLookup (r : Except Err FS) (k : String) : Option (Option (List Nat)) :=
  match r with
  | .ok fs => some (fsLookup fs k)
  | .error _ => none

/-- The directory-creation log of a successful `encode` result. -/
def resultDirs (r : Option (Except Err FS)) : Option (List String) :=
  match r with
  | some (.ok fs) => some fs.dirsCreated
  | _ => none

/-- The directory-creation log of a successful `decode` result. -/
def exceptDirs (r : Except Err FS) : Option (List String) :=
  match r with
  | .ok fs => some fs.dirsCreated
  | .error _ => none

/-! ## Batch engine (`encodeAll`/`decodeAll`) -/

/-- `struct FileOperation` (codec.h): a path and an optional error message. -/
structure FileOperation where
  path : String
  error : Option String
deriving DecidableEq, Repr

/-- The per-operation loop shared by `encodeAll` (codec.cpp:118-125) and
`decodeAll` (codec.cpp:178-187): run `step` on each path in order; on success
the operation's error stays unset and the filesystem advances; on an
exception the error message is recorded on the operation and the loop
continues with the next item. -/
def runBatch (step : FS → String → Except Err FS) :
    FS → List String → FS × List FileOperation
  | fs, [] => (fs, [])
  | fs, p :: rest =>
    match step fs p with
    | .ok fs' =>
      let r := runBatch step fs' rest
      (r.1, { path := p, error := none } :: r.2)
    | .error e =>
      let r := runBatch step fs rest
      (r.1, { path := p, error := some (errMsg e) } :: r.2)

/-! ## File-list parsing (`loadOperationsFromFile`) -/

/-- Byte contents of a string, as the codec's text files store it. -/
def bytesOfString (s : String) : List Nat :=
  s.data.map Char.toNat

/-- Decode file bytes back into characters. -/
def stringOfBytes (bs : List Nat) : String :=
  ⟨bs.map Char.ofNat⟩

/-- Split file contents into the pieces between newline characters; the
final piece (after the last `'\n'`, or the whole content when there is no
newline) is always present, possibly empty. -/
def splitPieces : List Char → List (List Char)
  | [] => [[]]
  | c :: rest =>
    match splitPieces rest with
    | [] => [[]]
    | h :: t => if c = '\n' then [] :: h :: t else (c :: h) :: t

/-- The lines produced by the `while (getline(file, str))` loop
(codec.cpp:63-64): every piece between newlines, except that reaching
end-of-file with nothing read fails `getline`, so content ending in a
newline contributes no final empty line. -/
def getLines (cs : List Char) : List String :=
  let ps := splitPieces cs
  (if ps.getLast? = some [] then ps.dropLast else ps).map (fun l => ⟨l⟩)

/-- `loadOperationsFromFile` (codec.cpp:54-67): open the list file (throw
`OpenError` if unreadable) and push one `FileOperation` per `getline`
result, in order. -/
def loadOperationsFromFile (fs : FS) (path : String) :
    Except Err (List FileOperation) :=
  match fsLookup fs path with
  | none => .error (.openError path)
  | some bs =>
    .ok ((getLines (stringOfBytes bs).data).map
          (fun l => { path := l, error := none }))

/-! ## The 2020 codec (`SithCodec/SithCodec.h`), for the parts the claims
compare against -/

/-- The header-selection `switch` of the 2020 `encode`
(SithCodec.h:452-466): `SFX`/`VO` pick their signature and size; the
`default` branch explicitly sets a null header and size `0`. -/
def headerSel2020 (H : Header) : AudioFormat → Option (List Nat) × Nat
  | .SFX => (some H.sfx, H.sfx.length)
  | .VO => (some H.vo, H.vo.length)
  | .None => (none, 0)

/-- The 2020 header-write loop (`for i < headerSize: output.write(header+i,1)`,
SithCodec.h:469-470): writes nothing when the size is `0`, dereferences a
null pointer (`none`) otherwise. -/
def writeHeader2020 : Option (List Nat) × Nat → Option (List Nat)
  | (_, 0) => some []
  | (none, _ + 1) => none
  | (some b, n + 1) => if n + 1 ≤ b.length then some (b.take (n + 1)) else none

/-- The 2020 copy loop `while (input) { input.read(&ch, 1); output.write(&ch, 1); }`
(SithCodec.h:471-474): after the last successful read the stream is still
good, so one more iteration runs, the `read` fails leaving `ch` unchanged,
and the stale character is written again.  `ch` starts uninitialised
(parameter `ch`). -/
def copyLoop2020 (ch : Nat) : List Nat → List Nat
  | [] => [ch]
  | b :: rest => b :: copyLoop2020 b rest

/-- The bytes the 2020 `encode` writes to its output file for a given format
and input contents (header switch, header-write loop, then the copy loop). -/
def encodeBytes2020 (H : Header) (f : AudioFormat) (data : List Nat)
    (ch : Nat) : Option (List Nat) :=
  (writeHeader2020 (headerSel2020 H f)).map (fun hdr => hdr ++ copyLoop2020 ch data)

deriving instance DecidableEq for Except

/-! ## Helper lemmas about the filesystem model -/

theorem fsLookup_fsErase_ne (fs : FS) (k k' : String) (h : k' ≠ k) :
    fsLookup (fsErase fs k) k' = fsLookup fs k' :=
  lookupF_eraseF_ne fs.files k k' h

theorem fsLookup_fsCreateDirs (fs : FS) (d k : String) :
    fsLookup (fsCreateDirs fs d) k = fsLookup fs k := rfl

theorem fsExists_fsInsert_ne (fs : FS) (k k' : String) (v : List Nat)
    (h : k' ≠ k) : fsExists (fsInsert fs k v) k' = fsExists fs k' := by
  unfold fsExists
  rw [fsLookup_fsInsert_ne fs k k' v h]

theorem fsRename_dirs (fs : FS) (a b : String) :
    (fsRename fs a b).dirsCreated = fs.dirsCreated := by
  unfold fsRename
  cases fsLookup fs a <;> rfl

theorem fsInsert_dirs (fs : FS) (k : String) (v : List Nat) :
    (fsInsert fs k v).dirsCreated = fs.dirsCreated := rfl

/-- Successful finalization leaves the staged bytes at the output path with
its extension replaced. -/
theorem finalize_ok_lookup (fs : FS) (tmp outP ext : String)
    (staged : List Nat) (htmp : fsLookup fs tmp = some staged)
    (hne : outP ≠ tmp) :
    exceptLookup (finalize fs tmp outP ext true)
      (replaceExtension outP ext) = some (some staged) := by
  have hrn : ∀ fs' : FS, fsLookup fs' tmp = some staged →
      exceptLookup (.ok (fsRename fs' tmp (replaceExtension outP ext)))
        (replaceExtension outP ext) = some (some staged) := by
    intro fs' h
    simp only [exceptLookup, fsRename, h, fsLookup_fsInsert_self]
  unfold finalize
  by_cases hex : fsExists fs outP
  · rw [if_pos hex, if_pos rfl]
    exact hrn _ ((fsLookup_fsErase_ne fs outP tmp (fun hh => hne hh.symm)).trans htmp)
  · rw [if_neg hex]
    by_cases hpar : parentOf outP = ""
    · simp only [hpar, if_pos rfl]
      exact hrn _ htmp
    · simp only [if_neg hpar]
      exact hrn _ htmp

/-- When the output path exists and its removal fails, finalization throws
the delete error. -/
theorem finalize_delete_error (fs : FS) (tmp outP ext : String)
    (hex : fsExists fs outP = true) :
    finalize fs tmp outP ext false = .error (.deleteError outP) := by
  simp [finalize, hex]

/-- When the output path is missing and has a non-empty parent, finalization
asks `create_directories` for exactly that parent. -/
theorem finalize_dirs_created (fs : FS) (tmp outP ext : String)
    (hex : fsExists fs outP = false) (hpar : parentOf outP ≠ "") :
    exceptDirs (finalize fs tmp outP ext true) =
      some (parentOf outP :: fs.dirsCreated) := by
  simp only [finalize, hex, Bool.false_eq_true, if_false, if_neg hpar]
  simp [exceptDirs, fsRename_dirs, fsCreateDirs]

/-- For a non-`None` format the 2022 header write stages exactly the
format's signature. -/
theorem writeHeaderBytes_getHeader (H : Header) (f : AudioFormat)
    (hf : f ≠ .None) :
    writeHeaderBytes (getHeader H f) (sizeOfHeader H f) = some (sigOf H f) := by
  cases f with
  | None => exact absurd rfl hf
  | SFX =>
    cases hs : H.sfx with
    | nil => simp [getHeader, sizeOfHeader, writeHeaderBytes, sigOf, hs]
    | cons a l => simp [getHeader, sizeOfHeader, writeHeaderBytes, sigOf, hs]
  | VO =>
    cases hs : H.vo with
    | nil => simp [getHeader, sizeOfHeader, writeHeaderBytes, sigOf, hs]
    | cons a l => simp [getHeader, sizeOfHeader, writeHeaderBytes, sigOf, hs]

/-! ## Helper lemmas about format detection -/

theorem matchFormat_append (H : Header) (bytes rest : List Nat)
    (hs : H.sfx.length ≤ bytes.length) (hv : H.vo.length ≤ bytes.length) :
    matchFormat H (bytes ++ rest) = matchFormat H bytes := by
  unfold matchFormat
  rw [List.take_append_eq_append_take, List.take_append_eq_append_take,
    Nat.sub_eq_zero_of_le hs, Nat.sub_eq_zero_of_le hv]
  simp

theorem seekgBeg_zero (data : List Nat) (pos : Nat) :
    seekgBeg { data := data, pos := pos, fail := false, eof := false } 0 =
      { data := data, pos := 0, fail := false, eof := false } := by
  simp [seekgBeg]

theorem readN_good_fst (data : List Nat) (pos n : Nat) :
    (readN { data := data, pos := pos, fail := false, eof := false } n).1 =
      (data.drop pos).take n := by
  simp only [readN, Bool.or_self, Bool.false_eq_true, if_false]
  split <;> rfl

/-- The detected format of a freshly opened stream, as a pure function of the
first `maxSize` bytes and the residual buffer contents. -/
theorem formatOf_fresh_fst (H : Header) (data junk : List Nat) :
    (formatOf H (freshStream data) junk).1 =
      matchFormat H
        (data.take H.maxSize ++ junk.drop (data.take H.maxSize).length) := by
  have h0 : seekgBeg (freshStream data) 0 = freshStream data := seekgBeg_zero data 0
  have h1 : (readN (freshStream data) H.maxSize).1 = data.take H.maxSize := by
    rw [freshStream, readN_good_fst, List.drop_zero]
  simp only [formatOf, h0, h1]

/-- A signature comparison against `take m data ++ junk` cannot succeed when
the signature is not a prefix of the data and the data is not a prefix of the
signature. -/
theorem take_append_ne_sig (sig data j' : List Nat) (m : Nat)
    (hm : sig.length ≤ m)
    (h1 : ¬ sig <+: data) (h2 : ¬ data <+: sig) :
    (data.take m ++ j').take sig.length ≠ sig := by
  intro heq
  by_cases hc : sig.length ≤ (data.take m).length
  · rw [List.take_append_eq_append_take, Nat.sub_eq_zero_of_le hc] at heq
    simp only [List.take_zero, List.append_nil, List.take_take] at heq
    rw [min_eq_left hm] at heq
    exact h1 ⟨data.drop sig.length, by nth_rewrite 1 [← heq]; exact List.take_append_drop _ _⟩
  · push_neg at hc
    have hlen : min m data.length < sig.length := by simpa using hc
    have hdm : data.length ≤ m := by
      rcases Nat.le_total m data.length with h | h
      · rw [min_eq_left h] at hlen
        exact absurd hm (by omega)
      · exact h
    have hdl : data.length < sig.length := by
      rw [min_eq_right hdm] at hlen
      exact hlen
    rw [List.take_of_length_le hdm, List.take_append_eq_append_take,
      List.take_of_length_le (Nat.le_of_lt hdl)] at heq
    exact h2 ⟨j'.take (sig.length - data.length), heq⟩

theorem matchFormat_none_of_no_sig (H : Header) (data j' : List Nat)
    (hs1 : ¬ H.sfx <+: data) (hs2 : ¬ data <+: H.sfx)
    (hv1 : ¬ H.vo <+: data) (hv2 : ¬ data <+: H.vo) :
    matchFormat H (data.take H.maxSize ++ j') = .None := by
  unfold matchFormat
  rw [if_neg, if_neg]
  · rintro ⟨-, h⟩
    exact take_append_ne_sig H.vo data j' H.maxSize (le_max_right _ _) hv1 hv2 h
  · rintro ⟨-, h⟩
    exact take_append_ne_sig H.sfx data j' H.maxSize (le_max_left _ _) hs1 hs2 h

/-! ## Helper lemmas about the path model -/

theorem extSplit_stem_ext (s r : List Char) (hs : s ≠ []) (hr : r ≠ [])
    (hdot : ∀ c ∈ r, (c != '.') = true) :
    extSplit (s ++ '.' :: r) = (s, '.' :: r) := by
  have hslen : s.length ≠ 0 := fun h => hs (List.length_eq_zero.1 h)
  have hrlen : r.length ≠ 0 := fun h => hr (List.length_eq_zero.1 h)
  have hflen : (s ++ '.' :: r).length = s.length + r.length + 1 := by
    rw [List.length_append, List.length_cons]
    omega
  have hne1 : ¬ (s ++ '.' :: r = ['.'] ∨ s ++ '.' :: r = ['.', '.']) := by
    have h1 := hflen
    rintro (h | h)
    · rw [h] at h1
      simp only [List.length_cons, List.length_nil] at h1
      omega
    · rw [h] at h1
      simp only [List.length_cons, List.length_nil] at h1
      omega
  have ht : (s ++ '.' :: r).reverse.takeWhile (fun c => c != '.') = r.reverse := by
    rw [List.reverse_append, List.reverse_cons, List.append_assoc,
      List.singleton_append,
      takeWhile_append_all _ _ _ (fun c hc => hdot c (List.mem_reverse.1 hc)),
      takeWhile_cons_stop (fun c => c != '.') '.' s.reverse (by decide),
      List.append_nil]
  rw [extSplit, if_neg hne1]
  simp only [ht, List.length_reverse]
  rw [if_neg (by omega), if_neg (by omega)]
  have hpos : (s ++ '.' :: r).length - r.length - 1 = s.length := by omega
  rw [hpos, take_len_append, drop_len_append]

theorem mem_extSplit_stem {f : List Char} {c : Char}
    (h : c ∈ (extSplit f).1) : c ∈ f := by
  unfold extSplit at h
  split at h
  · exact h
  · simp only at h
    split at h
    · exact h
    · split at h
      · exact h
      · exact (List.take_sublist _ _).mem h

/-- Replacing the extension with a well-formed dotted extension (`".wav"`,
`".mp3"`) yields a path whose `extension()` is exactly that extension,
whenever the original filename has a non-empty stem. -/
theorem extensionOf_replaceExtension (p : String) (r : List Char)
    (hr : r ≠ [])
    (hdot : ∀ c ∈ r, (c != '.') = true)
    (hslash : ∀ c ∈ '.' :: r, (c != '/') = true)
    (hstem : stemOf p ≠ "") :
    extensionOf (replaceExtension p ⟨'.' :: r⟩) = ⟨'.' :: r⟩ := by
  have hstem' : (extSplit (splitSlash p.data).2).1 ≠ [] := by
    intro h
    apply hstem
    show (⟨(extSplit (splitSlash p.data).2).1⟩ : String) = ""
    rw [h]
  have hsl : ∀ c ∈ (extSplit (splitSlash p.data).2).1 ++ '.' :: r,
      (c != '/') = true := by
    intro c hc
    rcases List.mem_append.1 hc with h | h
    · exact splitSlash_no_slash p.data c (mem_extSplit_stem h)
    · exact hslash c h
  have hsplit : splitSlash ((splitSlash p.data).1 ++
      ((extSplit (splitSlash p.data).2).1 ++ '.' :: r)) =
      ((splitSlash p.data).1, (extSplit (splitSlash p.data).2).1 ++ '.' :: r) :=
    splitSlash_of_append _ _ hsl (splitSlash_dir_form p.data)
  have hrepl : replaceExtension p ⟨'.' :: r⟩ =
      ⟨(splitSlash p.data).1 ++ ((extSplit (splitSlash p.data).2).1 ++ '.' :: r)⟩ := by
    unfold replaceExtension
    simp [List.append_assoc]
  rw [hrepl]
  show (⟨(extSplit (splitSlash ((splitSlash p.data).1 ++
      ((extSplit (splitSlash p.data).2).1 ++ '.' :: r))).2).2⟩ : String) = _
  rw [hsplit]
  show (⟨(extSplit ((extSplit (splitSlash p.data).2).1 ++ '.' :: r)).2⟩ : String) = _
  rw [extSplit_stem_ext _ r hstem' hr hdot]

/-! ## Helper lemmas about file-list parsing -/

theorem splitPieces_ne_nil (cs : List Char) : splitPieces cs ≠ [] := by
  cases cs with
  | nil => simp [splitPieces]
  | cons c rest =>
    simp only [splitPieces]
    cases splitPieces rest with
    | nil => simp
    | cons h t =>
      by_cases hc : c = '\n' <;> simp [hc]

theorem splitPieces_newline_cons (ys : List Char) :
    splitPieces ('\n' :: ys) = [] :: splitPieces ys := by
  simp only [splitPieces]
  cases hy : splitPieces ys with
  | nil => exact absurd hy (splitPieces_ne_nil ys)
  | cons h t => simp

theorem splitPieces_append_nlfree (xs ys : List Char)
    (hx : ∀ c ∈ xs, c ≠ '\n') :
    splitPieces (xs ++ ys) =
      (xs ++ (splitPieces ys).headD []) :: (splitPieces ys).tail := by
  induction xs with
  | nil =>
    simp only [List.nil_append]
    cases hy : splitPieces ys with
    | nil => exact absurd hy (splitPieces_ne_nil ys)
    | cons h t => simp
  | cons c xs ih =>
    have hc : c ≠ '\n' := hx c (by simp)
    have ih' := ih (fun d hd => hx d (by simp [hd]))
    simp only [List.cons_append, splitPieces, List.append_eq]
    rw [ih']
    simp [hc]

/-- `concat (ls.map (· ++ "\\n"))` at the character level: each line followed
by a newline; the shape of any file every of whose lines is newline
terminated. -/
def concatLines : List String → List Char
  | [] => []
  | l :: r => l.data ++ '\n' :: concatLines r

theorem getLines_mapcore_cons (x : List Char) (ps : List (List Char))
    (hps : ps ≠ []) :
    ((if (x :: ps).getLast? = some [] then (x :: ps).dropLast else x :: ps).map
        (fun l => (⟨l⟩ : String))) =
      ⟨x⟩ :: ((if ps.getLast? = some [] then ps.dropLast else ps).map
        (fun l => (⟨l⟩ : String))) := by
  obtain ⟨q, t, rfl⟩ : ∃ q t, ps = q :: t := by
    cases ps with
    | nil => exact absurd rfl hps
    | cons q t => exact ⟨q, t, rfl⟩
  rw [List.getLast?_cons_cons]
  by_cases h : (q :: t).getLast? = some []
  · simp [h]
  · simp [h]

theorem getLines_piece_cons (x : List Char) (hx : ∀ c ∈ x, c ≠ '\n')
    (ys : List Char) :
    getLines (x ++ '\n' :: ys) = ⟨x⟩ :: getLines ys := by
  unfold getLines
  rw [splitPieces_append_nlfree x ('\n' :: ys) hx, splitPieces_newline_cons]
  simp only [List.headD_cons, List.tail_cons, List.append_nil]
  exact getLines_mapcore_cons x (splitPieces ys) (splitPieces_ne_nil ys)

theorem getLines_concatLines (ls : List String)
    (h : ∀ l ∈ ls, ∀ c ∈ l.data, c ≠ '\n') :
    getLines (concatLines ls) = ls := by
  induction ls with
  | nil => rfl
  | cons l r ih =>
    show getLines (l.data ++ '\n' :: concatLines r) = l :: r
    rw [getLines_piece_cons l.data (h l (by simp)) (concatLines r),
      ih (fun m hm => h m (by simp [hm]))]

theorem stringOfBytes_bytesOfString (s : String) :
    stringOfBytes (bytesOfString s) = s := by
  unfold stringOfBytes bytesOfString
  rw [List.map_map]
  have : (Char.ofNat ∘ Char.toNat) = id := by
    funext c
    simp [Char.ofNat_toNat]
  rw [this, List.map_id]

/-! ## Helper lemmas about the 2020 codec -/

theorem copyLoop2020_eq (ch : Nat) (P : List Nat) :
    copyLoop2020 ch P = P ++ [P.getLastD ch] := by
  induction P generalizing ch with
  | nil => rfl
  | cons b rest ih =>
    show b :: copyLoop2020 b rest = (b :: rest) ++ [(b :: rest).getLastD ch]
    rw [ih b, List.getLastD_cons]
    simp

/-! ## Detection on streams holding a full buffer's worth of data -/

theorem seekgBeg_nat (data : List Nat) (pos n : Nat) :
    seekgBeg { data := data, pos := pos, fail := false, eof := false } (n : Int) =
      { data := data, pos := n, fail := false, eof := false } := by
  simp [seekgBeg]

/-- When the stream is good and holds at least `maxSize` bytes, `formatOf`
reads the whole buffer from the beginning of the stream, restores the
position, and its verdict is a pure function of the first `maxSize` bytes
(independent of position and of the uninitialised buffer residue). -/
theorem formatOf_restores (H : Header) (s : IStream) (junk : List Nat)
    (h1 : s.fail = false) (h2 : s.eof = false)
    (h3 : H.maxSize ≤ s.data.length) :
    formatOf H s junk = (matchFormat H (s.data.take H.maxSize), s) := by
  obtain ⟨data, pos, fl, ef⟩ := s
  simp only at h1 h2 h3
  subst h1
  subst h2
  have e1 : tellg { data := data, pos := pos, fail := false, eof := false } =
      (pos : Int) := by simp [tellg]
  have e2 := seekgBeg_zero data pos
  have hc : ((data.drop 0).take H.maxSize).length = H.maxSize := by
    rw [List.drop_zero, List.length_take]
    exact min_eq_left h3
  have e3 : readN { data := data, pos := 0, fail := false, eof := false }
      H.maxSize =
      (data.take H.maxSize,
       { data := data, pos := 0 + H.maxSize, fail := false, eof := false }) := by
    simp only [readN, Bool.or_self, Bool.false_eq_true, if_false]
    rw [if_pos hc, List.drop_zero]
  have e4 := seekgBeg_nat data (0 + H.maxSize) pos
  have hs : H.sfx.length ≤ (data.take H.maxSize).length := by
    rw [List.length_take, min_eq_left h3]
    exact le_max_left _ _
  have hv : H.vo.length ≤ (data.take H.maxSize).length := by
    rw [List.length_take, min_eq_left h3]
    exact le_max_right _ _
  simp only [formatOf, e1, e2, e3, e4]
  rw [matchFormat_append H (data.take H.maxSize) _ hs hv]

/-! ## The byte-level round trip, in the regime where it works -/

theorem take_append_eq_sig_pre {sig other P : List Nat}
    (h : (other ++ P).take sig.length = sig) :
    sig <+: other ∨ other <+: sig := by
  by_cases hc : sig.length ≤ other.length
  · rw [List.take_append_eq_append_take, Nat.sub_eq_zero_of_le hc] at h
    simp only [List.take_zero, List.append_nil] at h
    left
    exact ⟨other.drop sig.length,
      by nth_rewrite 1 [← h]; exact List.take_append_drop _ _⟩
  · push_neg at hc
    right
    rw [List.take_append_eq_append_take,
      List.take_of_length_le (le_of_lt hc)] at h
    exact ⟨P.take (sig.length - other.length), h⟩

/-- `matchFormat` recognises a signature-prefixed buffer as its format, for a
well-formed signature table. -/
theorem matchFormat_sig (H : Header) (f : AudioFormat) (P : List Nat)
    (hw : H.WellFormed) (hf : f ≠ .None) :
    matchFormat H (sigOf H f ++ P) = f := by
  obtain ⟨hs, hv, hsv, hvs⟩ := hw
  cases f with
  | None => exact absurd rfl hf
  | SFX =>
    unfold matchFormat sigOf
    rw [if_pos]
    exact ⟨fun h => hs (List.length_eq_zero.1 h), take_len_append _ _⟩
  | VO =>
    unfold matchFormat sigOf
    rw [if_neg, if_pos]
    · exact ⟨fun h => hv (List.length_eq_zero.1 h), take_len_append _ _⟩
    · rintro ⟨-, h⟩
      rcases take_append_eq_sig_pre h with h' | h'
      · exact hsv h'
      · exact hvs h'

/-- The format verdict only looks at the first `maxSize` bytes. -/
theorem matchFormat_take_max (H : Header) (D : List Nat) :
    matchFormat H (D.take H.maxSize) = matchFormat H D := by
  unfold matchFormat
  rw [List.take_take, List.take_take,
    min_eq_left (show H.sfx.length ≤ H.maxSize from le_max_left _ _),
    min_eq_left (show H.vo.length ≤ H.maxSize from le_max_right _ _)]

/-- The positive side of the round trip: when the encoded file is at least
`maxSize` bytes long the stream stays good through `formatOf`, the header is
skipped, and decoding recovers exactly the payload. -/
theorem decodeTransform_roundtrip (H : Header) (f : AudioFormat)
    (P junk : List Nat) (hw : H.WellFormed) (hf : f ≠ .None)
    (hlen : H.maxSize ≤ (sigOf H f).length + P.length) :
    decodeTransform H (sigOf H f ++ P) junk = (f, P) := by
  have hdata : H.maxSize ≤ (sigOf H f ++ P).length := by
    rw [List.length_append]
    exact hlen
  have hfo := formatOf_restores H (freshStream (sigOf H f ++ P)) junk rfl rfl hdata
  have hmf : matchFormat H (((freshStream (sigOf H f ++ P)).data).take H.maxSize) = f := by
    rw [show (freshStream (sigOf H f ++ P)).data = sigOf H f ++ P from rfl,
      matchFormat_take_max, matchFormat_sig H f P hw hf]
  simp only [decodeTransform, hfo, hmf]
  cases f with
  | None => exact absurd rfl hf
  | SFX =>
    simp only [skipHeader, freshStream, seekgBeg_nat, copyAllBytes]
    rw [show (sigOf H .SFX) = H.sfx from rfl] at hdata ⊢
    rw [drop_len_append]
  | VO =>
    simp only [skipHeader, freshStream, seekgBeg_nat, copyAllBytes]
    rw [show (sigOf H .VO) = H.vo from rfl] at hdata ⊢
    rw [drop_len_append]

theorem resultLookup_some (e : Except Err FS) (k : String) :
    resultLookup (some e) k = exceptLookup e k := by
  cases e <;> rfl

/-! ## Claims -/

/-- Claim C1 (code bug): the claimed round-trip identity
`decode(encode(P, F)) = P` fails on the 2022 codec.  With the spec §8
signature table, encoding payload `[0xAA]` as `VO` yields the three-byte file
`FF FB AA`; that file is shorter than `maxSignatureLength()`, so `formatOf`'s
full-buffer `read` fails, the subsequent `seekg`s are ignored while `failbit`
is set, and the copy starts at end-of-file: `decode` stages an empty payload
instead of `[0xAA]`.  (For inputs of at least `maxSignatureLength()` bytes the
round trip does hold — see `decodeTransform_roundtrip`.) -/
theorem claim_C1_roundtrip_failure :
    resultLookup
        (encode testHeader { files := [("voice.mp3", [0xAA])], dirsCreated := [] }
          "voice.mp3" .VO "enc.bin" "tmp1" true) "enc.wav" =
      some (some [0xFF, 0xFB, 0xAA]) ∧
    decodeTransform testHeader [0xFF, 0xFB, 0xAA] [0, 0, 0, 0] = (.VO, []) ∧
    exceptLookup
        (decode testHeader { files := [("enc.wav", [0xFF, 0xFB, 0xAA])], dirsCreated := [] }
          "enc.wav" "dec.bin" "tmp2" [0, 0, 0, 0] true) "dec.mp3" =
      some (some []) ∧
    ([] : List Nat) ≠ [0xAA] := by
  refine ⟨by decide, by decide, by decide, by decide⟩

/-- Claim C2 (code bug): the 2022 `decode` has no early return for
`AudioFormat::None` (the 2020 version, SithCodec.h:304-306, does).  On a file
matching no signature it detects `None`, skips nothing, copies the whole
input to the temporary file, and finalizes: it removes/overwrites the file at
the extension-forced output path and renames the copy there — an observable
write, not a no-op.  Evaluation: input `[1,2,3,4,5]` detects `None`, yet
`decode` replaces the pre-existing `out.wav` (contents `[7]`) with a full
copy of the input. -/
theorem claim_C2_decode_none_writes :
    (formatOf testHeader (freshStream [1, 2, 3, 4, 5]) [0, 0, 0, 0]).1 = .None ∧
    exceptLookup
        (decode testHeader
          { files := [("in.bin", [1, 2, 3, 4, 5]), ("out.wav", [7])], dirsCreated := [] }
          "in.bin" "out.bin" "tmp" [0, 0, 0, 0] true) "out.wav" =
      some (some [1, 2, 3, 4, 5]) ∧
    some (some [1, 2, 3, 4, 5]) ≠ some (some [7]) := by
  refine ⟨by decide, by decide, by decide⟩

/-- Claim C3, counterexample: a file strictly shorter than
`maxSignatureLength()` need not detect as `None` — a short file that begins
with the complete (shorter) `VO` signature detects as `VO`, because the 2022
`formatOf` compares signatures against the partially filled buffer without
checking how many bytes the failed `read` actually extracted. -/
theorem claim_C3_counterexample :
    ([0xFF, 0xFB] : List Nat).length < testHeader.maxSize ∧
    (formatOf testHeader (freshStream [0xFF, 0xFB]) [9, 9, 9, 9]).1 = .VO ∧
    (AudioFormat.VO ≠ .None) := by
  refine ⟨by decide, by decide, by decide⟩

/-- Claim C3 (amended): detection never throws (`formatOf` is total in the
model), and a short file detects as `None` provided its bytes neither begin
with a complete signature nor form a byte-for-byte prefix of one — in those
excluded cases the verdict can be the signature's format (see the
counterexample), because the comparison reads the file's bytes followed by
indeterminate buffer residue `junk`. -/
theorem claim_C3_short_unmatched_detects_none (H : Header)
    (data junk : List Nat) (hshort : data.length < H.maxSize)
    (hs1 : ¬ H.sfx <+: data) (hs2 : ¬ data <+: H.sfx)
    (hv1 : ¬ H.vo <+: data) (hv2 : ¬ data <+: H.vo) :
    (formatOf H (freshStream data) junk).1 = .None := by
  rw [formatOf_fresh_fst]
  exact matchFormat_none_of_no_sig H data _ hs1 hs2 hv1 hv2

theorem claim_C3_witness :
    (formatOf testHeader (freshStream [0x00]) [7, 7, 7, 7]).1 = .None :=
  claim_C3_short_unmatched_detects_none testHeader [0x00] [7, 7, 7, 7]
    (by decide) (by decide) (by decide) (by decide) (by decide)

/-- Claim C4: the batch loop runs the per-file transform on every operation
in list order, returns exactly one result per operation in the original
order, records the thrown error's message on a failing operation, and keeps
going — a failure never aborts the batch.  `bad` characterises, per path,
whether the transform throws (independently of the filesystem state, as for
an unreadable file). -/
theorem claim_C4_batch_order_and_errors (step : FS → String → Except Err FS)
    (fs : FS) (ops : List String) (bad : String → Option Err)
    (hstep : ∀ s p, (∀ e, bad p = some e → step s p = .error e) ∧
      (bad p = none → ∃ s', step s p = .ok s')) :
    (runBatch step fs ops).2 =
      ops.map (fun p => { path := p, error := (bad p).map errMsg }) ∧
    (runBatch step fs ops).2.length = ops.length := by
  have main : ∀ fs₀ : FS, (runBatch step fs₀ ops).2 =
      ops.map (fun p => { path := p, error := (bad p).map errMsg }) := by
    induction ops with
    | nil => intro fs₀; rfl
    | cons p rest ih =>
      intro fs₀
      cases hb : bad p with
      | none =>
        obtain ⟨s', hs⟩ := (hstep fs₀ p).2 hb
        simp only [runBatch, hs, ih, hb, List.map_cons]
        rfl
      | some e =>
        have hs := (hstep fs₀ p).1 e hb
        simp only [runBatch, hs, ih, hb, List.map_cons]
        rfl
  exact ⟨main fs, by rw [main fs, List.length_map]⟩

/-- A batch step that fails exactly on the path `"bad.wav"` (as an unreadable
file does), used to instantiate the batch theorem. -/
def stepW : FS → String → Except Err FS :=
  fun s p => if p = "bad.wav" then .error (.openError "bad.wav") else .ok s

/-- The failure oracle matching `stepW`. -/
def badW : String → Option Err :=
  fun p => if p = "bad.wav" then some (.openError "bad.wav") else none

/-- A three-file batch whose middle file fails. -/
def opsW : List String := ["a.wav", "bad.wav", "c.wav"]

theorem claim_C4_witness :
    (runBatch stepW { files := [], dirsCreated := [] } opsW).2 =
      opsW.map (fun p => { path := p, error := (badW p).map errMsg }) ∧
    (runBatch stepW { files := [], dirsCreated := [] } opsW).2.length =
      opsW.length := by
  have h := claim_C4_batch_order_and_errors stepW
    { files := [], dirsCreated := [] } opsW badW (by
      intro s p
      constructor
      · intro e he
        by_cases hp : p = "bad.wav"
        · subst hp
          have he' : Err.openError "bad.wav" = e := by simpa [badW] using he
          subst he'
          simp [stepW]
        · simp [badW, hp] at he
      · intro hb
        by_cases hp : p = "bad.wav"
        · simp [badW, hp] at hb
        · exact ⟨s, by simp [stepW, hp]⟩)
  exact h

/-- Claim C5: for a readable input with contents `P` and a format
`F ∈ {SFX, VO}`, `encode` stages exactly `F`'s full signature followed by `P`
verbatim, the staged bytes end up at the output path with its extension
replaced by the encode extension, and that extension is `".wav"` (for output
paths whose filename has a non-empty stem — `path::extension()` of a
bare dotfile such as `".wav"` itself is empty, see claim C7). -/
theorem claim_C5_encode_bytes_and_extension (H : Header) (fs : FS)
    (inP outP tmp : String) (P : List Nat) (f : AudioFormat)
    (hf : f ≠ .None) (hin : fsLookup fs inP = some P) (hne : outP ≠ tmp)
    (hstem : stemOf outP ≠ "") :
    resultLookup (encode H fs inP f outP tmp true)
        (replaceExtension outP (getEncodeExtension f)) =
      some (some (sigOf H f ++ P)) ∧
    getEncodeExtension f = ".wav" ∧
    extensionOf (replaceExtension outP (getEncodeExtension f)) = ".wav" := by
  refine ⟨?_, rfl, ?_⟩
  · simp only [encode, hin, writeHeaderBytes_getHeader H f hf]
    rw [resultLookup_some]
    exact finalize_ok_lookup (fsInsert fs tmp (sigOf H f ++ P)) tmp outP
      (getEncodeExtension f) (sigOf H f ++ P)
      (fsLookup_fsInsert_self fs tmp _) hne
  · exact extensionOf_replaceExtension outP ['w', 'a', 'v'] (by decide)
      (by decide) (by decide) hstem

theorem claim_C5_witness :
    resultLookup
        (encode testHeader { files := [("song.mp3", [0xAA, 0xBB])], dirsCreated := [] }
          "song.mp3" .VO "out.bin" "tmpdir-xyz" true)
        (replaceExtension "out.bin" (getEncodeExtension .VO)) =
      some (some (sigOf testHeader .VO ++ [0xAA, 0xBB])) ∧
    getEncodeExtension .VO = ".wav" ∧
    extensionOf (replaceExtension "out.bin" (getEncodeExtension .VO)) = ".wav" :=
  claim_C5_encode_bytes_and_extension testHeader
    { files := [("song.mp3", [0xAA, 0xBB])], dirsCreated := [] }
    "song.mp3" "out.bin" "tmpdir-xyz" [0xAA, 0xBB] .VO
    (by decide) (by decide) (by decide) (by decide)

/-- Claim C6: finalization of both transforms.  When the resolved output path
already exists and its removal fails, the transform throws `DeleteError`;
when removal succeeds (or the output did not exist) the temporary file is
renamed onto the output path with its extension forced to the canonical
extension (`.wav` on encode; `getDecodeExtension` of the detected format on
decode, i.e. `.mp3` for `VO` and `.wav` otherwise), so the extension-forced
path afterwards holds the transformed bytes; and when the output path did not
exist and has a non-empty parent, `create_directories` is invoked on exactly
that parent. -/
theorem claim_C6_finalization (H : Header) (fs : FS) (inP outP tmp : String)
    (P junk : List Nat) (f : AudioFormat)
    (hf : f ≠ .None) (hin : fsLookup fs inP = some P) (hne : outP ≠ tmp) :
    (fsExists fs outP = true →
      encode H fs inP f outP tmp false = some (.error (.deleteError outP)) ∧
      decode H fs inP outP tmp junk false = .error (.deleteError outP)) ∧
    resultLookup (encode H fs inP f outP tmp true)
        (replaceExtension outP (getEncodeExtension f)) =
      some (some (sigOf H f ++ P)) ∧
    exceptLookup (decode H fs inP outP tmp junk true)
        (replaceExtension outP (getDecodeExtension (decodeTransform H P junk).1)) =
      some (some (decodeTransform H P junk).2) ∧
    (fsExists fs outP = false → parentOf outP ≠ "" →
      resultDirs (encode H fs inP f outP tmp true) =
        some (parentOf outP :: fs.dirsCreated) ∧
      exceptDirs (decode H fs inP outP tmp junk true) =
        some (parentOf outP :: fs.dirsCreated)) := by
  refine ⟨?_, ?_, ?_, ?_⟩
  · intro hex
    constructor
    · simp only [encode, hin, writeHeaderBytes_getHeader H f hf]
      rw [finalize_delete_error]
      rw [fsExists_fsInsert_ne fs tmp outP _ hne]
      exact hex
    · simp only [decode, hin]
      rw [finalize_delete_error]
      rw [fsExists_fsInsert_ne fs tmp outP _ hne]
      exact hex
  · simp only [encode, hin, writeHeaderBytes_getHeader H f hf]
    rw [resultLookup_some]
    exact finalize_ok_lookup _ tmp outP _ (sigOf H f ++ P)
      (fsLookup_fsInsert_self fs tmp _) hne
  · simp only [decode, hin]
    exact finalize_ok_lookup _ tmp outP _ (decodeTransform H P junk).2
      (fsLookup_fsInsert_self fs tmp _) hne
  · intro hex hpar
    constructor
    · simp only [encode, hin, writeHeaderBytes_getHeader H f hf]
      have : resultDirs (some (finalize (fsInsert fs tmp (sigOf H f ++ P)) tmp
          outP (getEncodeExtension f) true)) =
          exceptDirs (finalize (fsInsert fs tmp (sigOf H f ++ P)) tmp outP
            (getEncodeExtension f) true) := by
        cases finalize (fsInsert fs tmp (sigOf H f ++ P)) tmp outP
          (getEncodeExtension f) true <;> rfl
      rw [this, finalize_dirs_created]
      · rfl
      · rw [fsExists_fsInsert_ne fs tmp outP _ hne]
        exact hex
      · exact hpar
    · simp only [decode, hin]
      rw [finalize_dirs_created]
      · rfl
      · rw [fsExists_fsInsert_ne fs tmp outP _ hne]
        exact hex
      · exact hpar

theorem claim_C6_witness :
    (fsExists { files := [("in.wav", [1]), ("out.bin", [5])], dirsCreated := [] }
        "out.bin" = true →
      encode testHeader { files := [("in.wav", [1]), ("out.bin", [5])], dirsCreated := [] }
          "in.wav" .SFX "out.bin" "tmp9" false =
        some (.error (.deleteError "out.bin")) ∧
      decode testHeader { files := [("in.wav", [1]), ("out.bin", [5])], dirsCreated := [] }
          "in.wav" "out.bin" "tmp9" [0, 0, 0, 0] false =
        .error (.deleteError "out.bin")) ∧
    resultLookup (encode testHeader
        { files := [("in.wav", [1]), ("out.bin", [5])], dirsCreated := [] }
        "in.wav" .SFX "out.bin" "tmp9" true)
        (replaceExtension "out.bin" (getEncodeExtension .SFX)) =
      some (some (sigOf testHeader .SFX ++ [1])) ∧
    exceptLookup (decode testHeader
        { files := [("in.wav", [1]), ("out.bin", [5])], dirsCreated := [] }
        "in.wav" "out.bin" "tmp9" [0, 0, 0, 0] true)
        (replaceExtension "out.bin"
          (getDecodeExtension (decodeTransform testHeader [1] [0, 0, 0, 0]).1)) =
      some (some (decodeTransform testHeader [1] [0, 0, 0, 0]).2) ∧
    (fsExists { files := [("in.wav", [1]), ("out.bin", [5])], dirsCreated := [] }
        "out.bin" = false → parentOf "out.bin" ≠ "" →
      resultDirs (encode testHeader
          { files := [("in.wav", [1]), ("out.bin", [5])], dirsCreated := [] }
          "in.wav" .SFX "out.bin" "tmp9" true) =
        some (parentOf "out.bin" :: []) ∧
      exceptDirs (decode testHeader
          { files := [("in.wav", [1]), ("out.bin", [5])], dirsCreated := [] }
          "in.wav" "out.bin" "tmp9" [0, 0, 0, 0] true) =
        some (parentOf "out.bin" :: [])) :=
  claim_C6_finalization testHeader
    { files := [("in.wav", [1]), ("out.bin", [5])], dirsCreated := [] }
    "in.wav" "out.bin" "tmp9" [1] [0, 0, 0, 0] .SFX
    (by decide) (by decide) (by decide)

/-- Claim C7 (code bug): the 2022 `encode`/`decode` never default the output
path to the input path — the doc comment in `codec.h` promises "default
argument will use inputPath and potentially overwrite", and the 2020 version
implements exactly that, but `codec.cpp` uses the empty `outputPath` as-is:
the rename target is `path("").replace_extension(".wav")`, i.e. the file
`".wav"` in the current directory, and the input file is left untouched.
Evaluation: encoding `song.dat` with no output path creates `".wav"` and does
not overwrite `song.dat`. -/
theorem claim_C7_default_output_is_not_input :
    replaceExtension "" (getEncodeExtension .SFX) = ".wav" ∧
    resultLookup (encode testHeader
        { files := [("song.dat", [9])], dirsCreated := [] }
        "song.dat" .SFX "" "tmpA" true) ".wav" =
      some (some [0x52, 0x49, 0x46, 0x46, 9]) ∧
    resultLookup (encode testHeader
        { files := [("song.dat", [9])], dirsCreated := [] }
        "song.dat" .SFX "" "tmpA" true) "song.dat" =
      some (some [9]) ∧
    (".wav" : String) ≠ "song.dat" := by
  refine ⟨by decide, by decide, by decide, by decide⟩

/-- Claim C8, counterexample: on a stream shorter than
`maxSignatureLength()`, `formatOf`'s failed full-buffer `read` sets
`failbit`, the restoring `seekg` is therefore ignored, and the stream comes
back failed with its position at end-of-stream instead of the original
position `0`. -/
theorem claim_C8_counterexample :
    (formatOf testHeader { data := [1, 2], pos := 0, fail := false, eof := false }
        [9, 9, 9, 9]).2 ≠
      { data := [1, 2], pos := 0, fail := false, eof := false } ∧
    (formatOf testHeader { data := [1, 2], pos := 0, fail := false, eof := false }
        [9, 9, 9, 9]).2 =
      { data := [1, 2], pos := 2, fail := true, eof := false } := by
  refine ⟨by decide, by decide⟩

/-- Claim C8 (amended): `formatOf` seeks to the beginning first, so it reads
at most `maxSignatureLength()` bytes from the start of the stream (not from
the current position); when the stream is good and holds at least
`maxSignatureLength()` bytes, it restores the original position and flags
exactly, its verdict is a pure function of the first `maxSignatureLength()`
bytes, and a repeated call (with any buffer residue) returns the same
verdict.  On shorter streams the read failure leaves `failbit` set and the
position at end-of-stream (see the counterexample). -/
theorem claim_C8_detection_restores (H : Header) (s : IStream)
    (junk junk' : List Nat) (h1 : s.fail = false) (h2 : s.eof = false)
    (h3 : H.maxSize ≤ s.data.length) :
    formatOf H s junk = (matchFormat H (s.data.take H.maxSize), s) ∧
    (formatOf H (formatOf H s junk).2 junk').1 = (formatOf H s junk).1 := by
  have h := formatOf_restores H s junk h1 h2 h3
  refine ⟨h, ?_⟩
  simp only [h]
  rw [formatOf_restores H s junk' h1 h2 h3]

theorem claim_C8_witness :
    formatOf testHeader
        { data := [0x52, 0x49, 0x46, 0x46, 7], pos := 1, fail := false, eof := false }
        [0, 0, 0, 0] =
      (matchFormat testHeader ([0x52, 0x49, 0x46, 0x46, 7].take testHeader.maxSize),
       { data := [0x52, 0x49, 0x46, 0x46, 7], pos := 1, fail := false, eof := false }) ∧
    (formatOf testHeader
        (formatOf testHeader
          { data := [0x52, 0x49, 0x46, 0x46, 7], pos := 1, fail := false, eof := false }
          [0, 0, 0, 0]).2 [1, 1, 1, 1]).1 =
      (formatOf testHeader
        { data := [0x52, 0x49, 0x46, 0x46, 7], pos := 1, fail := false, eof := false }
        [0, 0, 0, 0]).1 :=
  claim_C8_detection_restores testHeader
    { data := [0x52, 0x49, 0x46, 0x46, 7], pos := 1, fail := false, eof := false }
    [0, 0, 0, 0] [1, 1, 1, 1] (by decide) (by decide) (by decide)

/-- Claim C9, counterexample: the `while (getline(file, str))` loop pushes
one `FileOperation` for every line, empty lines included — a list file with
contents `"a\n\nb"` yields three operations (`"a"`, `""`, `"b"`), not the two
non-empty lines the claim predicts. -/
theorem claim_C9_counterexample :
    loadOperationsFromFile
        { files := [("list.txt", bytesOfString "a\n\nb")], dirsCreated := [] }
        "list.txt" =
      .ok [{ path := "a", error := none }, { path := "", error := none },
           { path := "b", error := none }] ∧
    [({ path := "a", error := none } : FileOperation), { path := "", error := none },
     { path := "b", error := none }] ≠
      [{ path := "a", error := none }, { path := "b", error := none }] := by
  refine ⟨by decide, by decide⟩

/-- Claim C9 (amended): operation resolution from a file-list produces
exactly one `FileOperation` per line — empty lines included — in line order,
with the error unset; a terminating newline contributes no extra empty
operation.  Stated for any contents assembled from newline-terminated
lines. -/
theorem claim_C9_one_op_per_line (fs : FS) (path : String) (ls : List String)
    (hnl : ∀ l ∈ ls, ∀ c ∈ l.data, c ≠ '\n')
    (hin : fsLookup fs path = some (bytesOfString ⟨concatLines ls⟩)) :
    loadOperationsFromFile fs path =
      .ok (ls.map (fun l => { path := l, error := none })) := by
  unfold loadOperationsFromFile
  rw [hin]
  show Except.ok ((getLines (stringOfBytes (bytesOfString ⟨concatLines ls⟩)).data).map
      (fun l => ({ path := l, error := none } : FileOperation))) =
    Except.ok (ls.map (fun l => ({ path := l, error := none } : FileOperation)))
  rw [stringOfBytes_bytesOfString,
    show (⟨concatLines ls⟩ : String).data = concatLines ls from rfl,
    getLines_concatLines ls hnl]

theorem claim_C9_witness :
    loadOperationsFromFile
        { files := [("list.txt", bytesOfString ⟨concatLines ["a", "", "b"]⟩)], dirsCreated := [] }
        "list.txt" =
      .ok (["a", "", "b"].map (fun l => { path := l, error := none })) :=
  claim_C9_one_op_per_line
    { files := [("list.txt", bytesOfString ⟨concatLines ["a", "", "b"]⟩)], dirsCreated := [] }
    "list.txt" ["a", "", "b"] (by decide) (by decide)

/-- Claim C10, counterexample: the claim's parenthetical that the 2020
`encode` "copies the input verbatim" for format `None` is false — the 2020
copy loop `while (input) { input.read(&ch, 1); output.write(&ch, 1); }` runs
one extra iteration after the last successful read, re-writing the stale
character, so the payload `[0xAA]` is written as `[0xAA, 0xAA]`. -/
theorem claim_C10_counterexample :
    encodeBytes2020 testHeader .None [0xAA] 0 = some [0xAA, 0xAA] ∧
    some [0xAA, 0xAA] ≠ some ([0xAA] : List Nat) := by
  refine ⟨by decide, by decide⟩

/-- Claim C10 (amended): for format `None` the two 2022 header-lookup
functions disagree — `getHeader` returns a null pointer (`none`) while
`sizeOfHeader` returns `Header::maxSize`, which is non-zero for any
well-formed table — so the 2022 `encode` reaches
`output.write(nullptr, maxSize)`, an undefined null-pointer write (modelled
as the `none` outcome); whereas the 2020 `encode` explicitly selects a null
header with size `0`, writes no header bytes, and copies the input followed
by one spurious duplicate of its last byte (not verbatim — see the
counterexample). -/
theorem claim_C10_header_lookup_disagreement (H : Header) (P : List Nat)
    (j : Nat) (fs : FS) (inP outP tmp : String) (removeOk : Bool)
    (data : List Nat) (hw : H.WellFormed)
    (hin : fsLookup fs inP = some data) :
    getHeader H .None = none ∧
    sizeOfHeader H .None = H.maxSize ∧
    H.maxSize ≠ 0 ∧
    encode H fs inP .None outP tmp removeOk = none ∧
    encodeBytes2020 H .None P j = some (P ++ [P.getLastD j]) := by
  have hmax : H.maxSize ≠ 0 := by
    have h1 : H.sfx.length ≠ 0 := fun h => hw.1 (List.length_eq_zero.1 h)
    have h2 : H.sfx.length ≤ H.maxSize := le_max_left _ _
    omega
  obtain ⟨k, hk⟩ := Nat.exists_eq_succ_of_ne_zero hmax
  refine ⟨rfl, rfl, hmax, ?_, ?_⟩
  · simp only [encode, hin, getHeader, sizeOfHeader, hk, writeHeaderBytes]
  · simp only [encodeBytes2020, headerSel2020, writeHeader2020, copyLoop2020_eq,
      Option.map_some']
    rfl

theorem claim_C10_witness :
    getHeader testHeader .None = none ∧
    sizeOfHeader testHeader .None = testHeader.maxSize ∧
    testHeader.maxSize ≠ 0 ∧
    encode testHeader { files := [("a.mp3", [1])], dirsCreated := [] }
        "a.mp3" .None "o.wav" "t" true = none ∧
    encodeBytes2020 testHeader .None [0xAA] 0 =
      some ([0xAA] ++ [[0xAA].getLastD 0]) :=
  claim_C10_header_lookup_disagreement testHeader [0xAA] 0
    { files := [("a.mp3", [1])], dirsCreated := [] }
    "a.mp3" "o.wav" "t" true [1] (by decide) (by decide)
